import Mathlib

/-!
Verification of the layer-overlay engine and archive serializer of the
`imgex` image-export library, shallowly embedded from the Go source
(`applyLayers`, `handleWhiteout`, `isWhiteoutFile`, `cleanPath`,
`sortTarEntries`, `getTypePriority`, `writeFilesystemTar` and the
duplicate unsorted `writeFilesystemTar` variant).

Paths are modelled as `List Char` (Go strings compare and slice bytewise;
for the ASCII path characters involved this coincides with the
character-list view).  Go maps are modelled as association lists carrying
one enumeration of the map; every map-level statement is phrased through
`mapLookup`/`mapMember`, which are enumeration-order independent.
-/

/-- Coerce a string literal to the character-list view used throughout. -/
def str (s : String) : List Char := s.data

/-- Go `strings.HasPrefix` on the character-list view. -/
def goHasPfx (s pre : List Char) : Bool := pre.isPrefixOf s

/-- Go `strings.TrimPrefix`: drop `pre` from the front of `s` when present. -/
def goTrimPfx (s pre : List Char) : List Char :=
  if goHasPfx s pre then s.drop pre.length else s

/-- Go `string <` comparison: strict lexicographic order (bytewise in Go,
charwise here; the two agree on UTF-8 encoded strings). -/
def listLt : List Char → List Char → Bool
  | _, [] => false
  | [], _ :: _ => true
  | a :: as, b :: bs => if a < b then true else if b < a then false else listLt as bs

/-- Go `strings.Count s "/"`: number of slashes (depth measure in the sort). -/
def slashCount (s : List Char) : Nat := s.count '/'

/-- Trailing part of the Go `path.Base` computation: the reversed input with
leading (i.e. originally trailing) slashes removed. -/
def stripTrailingSlashesRev (p : List Char) : List Char :=
  p.reverse.dropWhile (fun c => c = '/')

/-- Go `path.Base`: strip trailing slashes, take the part after the last
slash; empty input gives `"."`, an all-slash input gives `"/"`. -/
def goBase (p : List Char) : List Char :=
  if p = [] then str "."
  else
    let r := stripTrailingSlashesRev p
    if r = [] then str "/"
    else (r.takeWhile (fun c => c ≠ '/')).reverse

/-- The inner backtracking loop of Go `path.Clean` for a `..` element:
having just discarded `dropped` from the end of the output buffer
(held reversed in `rout`), keep discarding while the buffer is longer than
`dotdot` and the last discarded character is not a slash. -/
def cleanBacktrack (dotdot : Nat) : Char → List Char → List Char
  | _, [] => []
  | dropped, c :: rest =>
    if rest.length + 1 > dotdot ∧ dropped ≠ '/' then cleanBacktrack dotdot c rest
    else c :: rest

/-- Main loop of Go `path.Clean`, with the output buffer `rout` held in
reverse.  `fuel` only bounds recursion; each iteration consumes at least one
input character, so the fuel passed by `pathClean` is never exhausted. -/
def cleanLoop (rooted : Bool) : Nat → List Char → List Char → Nat → List Char
  | 0, _, rout, _ => rout
  | _ + 1, [], rout, _ => rout
  | fuel + 1, c :: rest, rout, dotdot =>
    if c = '/' then
      cleanLoop rooted fuel rest rout dotdot
    else if c = '.' ∧ (rest = [] ∨ rest.head? = some '/') then
      cleanLoop rooted fuel rest rout dotdot
    else if c = '.' ∧ rest.head? = some '.' ∧
        (rest.tail = [] ∨ rest.tail.head? = some '/') then
      if rout.length > dotdot then
        match rout with
        | [] => cleanLoop rooted fuel rest.tail [] dotdot
        | d :: rs => cleanLoop rooted fuel rest.tail (cleanBacktrack dotdot d rs) dotdot
      else if ¬ rooted then
        let rout1 := if rout.length > 0 then '/' :: rout else rout
        let rout2 := '.' :: '.' :: rout1
        cleanLoop rooted fuel rest.tail rout2 rout2.length
      else cleanLoop rooted fuel rest.tail rout dotdot
    else
      let rout1 :=
        if (rooted ∧ rout.length ≠ 1) ∨ (¬ rooted ∧ rout.length ≠ 0) then '/' :: rout
        else rout
      let elem := (c :: rest).takeWhile (fun ch => ch ≠ '/')
      let rem := (c :: rest).dropWhile (fun ch => ch ≠ '/')
      cleanLoop rooted fuel rem (elem.reverse ++ rout1) dotdot

/-- Go `path.Clean`: lexical path simplification (collapse multiple slashes,
eliminate `.` and `..` elements, drop trailing slash; empty result is `"."`). -/
def pathClean (p : List Char) : List Char :=
  if p = [] then str "."
  else
    let rooted := p.head? = some '/'
    let out :=
      if rooted then (cleanLoop rooted (p.length + 1) p.tail ['/'] 1).reverse
      else (cleanLoop rooted (p.length + 1) p [] 0).reverse
    if out = [] then str "." else out

/-- Go `path.Dir`: everything up to and including the final slash, cleaned;
a slashless input gives `"."`. -/
def goDir (p : List Char) : List Char :=
  pathClean ((p.reverse.dropWhile (fun c => c ≠ '/')).reverse)

/-- Go `path.Join(a, b)`: concatenate the nonempty parts with a slash and
clean; two empty arguments give the empty string. -/
def goJoin (a b : List Char) : List Char :=
  if a = [] ∧ b = [] then []
  else if a = [] then pathClean b
  else pathClean (a ++ '/' :: b)

example : pathClean (str "d/") = str "d" := by decide
example : pathClean (str "/d/") = str "/d" := by decide
example : pathClean (str "a/b/..") = str "a" := by decide
example : pathClean (str "a//b/./c") = str "a/b/c" := by decide
example : pathClean (str "") = str "." := by decide
example : goBase (str "d/.wh..wh..opq") = str ".wh..wh..opq" := by decide
example : goBase (str "///") = str "/" := by decide
example : goBase (str "") = str "." := by decide
example : goDir (str "d/.wh.sub") = str "d" := by decide
example : goDir (str ".wh..wh..opq") = str "." := by decide
example : goDir (str "/d/.wh.f") = str "/d" := by decide
example : goJoin (str "d") (str "f") = str "d/f" := by decide
example : goJoin (str "d") (str "") = str "d" := by decide

/-- Go `time.Time` values as the code uses them: either the zero value
`time.Time{}` or a `time.Unix(sec, nsec)` instant. -/
inductive GoTime
  | zero
  | unix (sec nsec : Int)
deriving DecidableEq, Repr

/-- The fields of `tar.Header` that the engine and serializer touch. -/
structure TarHeader where
  name : List Char
  typeflag : Char
  linkname : List Char
  size : Nat
  mode : Int
  uid : Int
  gid : Int
  modTime : GoTime
  accessTime : GoTime
  changeTime : GoTime
deriving DecidableEq, Repr

/-- Go `fileEntry`: a tar header plus the content bytes held for the path. -/
structure FileEntry where
  header : TarHeader
  data : List Nat
deriving DecidableEq, Repr

/-- One record of a decoded layer tar stream: the header and the bytes
actually available for the entry (fewer than `header.size` models a
truncated stream). -/
structure TarItem where
  header : TarHeader
  avail : List Nat
deriving DecidableEq, Repr

/-- The Go `map[string]*fileEntry` snapshot, as one enumeration of its
key/entry pairs.  All map-level reasoning goes through `mapLookup`. -/
abbrev Snapshot := List (List Char × FileEntry)

/-- Lookup of a key in the snapshot map. -/
def mapLookup (fs : Snapshot) (k : List Char) : Option FileEntry :=
  match fs with
  | [] => none
  | kv :: rest => if kv.1 = k then some kv.2 else mapLookup rest k

/-- Key membership in the snapshot map. -/
def mapMember (fs : Snapshot) (k : List Char) : Bool := (mapLookup fs k).isSome

/-- Go map assignment `m[k] = v`: any old binding of `k` is replaced. -/
def mapInsert (fs : Snapshot) (k : List Char) (v : FileEntry) : Snapshot :=
  fs.filter (fun kv => decide (kv.1 ≠ k)) ++ [(k, v)]

/-- Go `delete(m, k)`. -/
def mapDelete (fs : Snapshot) (k : List Char) : Snapshot :=
  fs.filter (fun kv => decide (kv.1 ≠ k))

/-- `imageExporter.cleanPath`: strip one leading slash; an empty result
becomes the root path `"."`. -/
def cleanPath (p : List Char) : List Char :=
  let cleaned := goTrimPfx p (str "/")
  if cleaned = [] then str "." else cleaned

/-- The `.wh.` deletion-marker name part. -/
def whMark : List Char := str ".wh."

/-- The opaque-whiteout sentinel file name. -/
def opqMark : List Char := str ".wh..wh..opq"

/-- `imageExporter.isWhiteoutFile`: the final path component of the raw
entry name starts with `.wh.`. -/
def isWhiteoutFile (filename : List Char) : Bool :=
  goHasPfx (goBase filename) whMark

/-- `imageExporter.handleWhiteout`: apply one deletion marker to the
snapshot.  An opaque marker removes every key extending `dir + "/"`
(every key at all when `dir` is `"."`); a regular marker removes the
cleaned target key and every key extending `target + "/"`. -/
def handleWhiteout (fs : Snapshot) (whiteoutPath : List Char) : Snapshot :=
  let dir := goDir whiteoutPath
  let base := goBase whiteoutPath
  if base = opqMark then
    let pre := if dir = str "." then [] else dir ++ str "/"
    fs.filter (fun kv => !(goHasPfx kv.1 pre))
  else if goHasPfx base whMark then
    let target := cleanPath (goJoin dir (goTrimPfx base whMark))
    let pre := target ++ str "/"
    (mapDelete fs target).filter (fun kv => !(goHasPfx kv.1 pre))
  else fs

/-- Cause distinguishing the two failure shapes of `io.ReadFull`. -/
inductive ReadErr
  | eof
  | unexpectedEof
deriving DecidableEq, Repr

/-- The abort conditions of `applyLayers` reachable in this embedding
(layer fetch and tar header decoding are modelled as already done).  The
Go error value for a short read is the constant message
`"failed to read file data"` wrapping the `io.ReadFull` cause; it carries
no path and no byte counts, which this constructor mirrors. -/
inductive ApplyError
  | fileData (cause : ReadErr)
deriving DecidableEq, Repr

/-- `io.ReadFull` into a buffer of length `n` from a stream holding
`avail`: succeeds with exactly `n` bytes, otherwise reports `EOF` (nothing
read) or `ErrUnexpectedEOF` (short read). -/
def readFull (avail : List Nat) (n : Nat) : Except ReadErr (List Nat) :=
  if n ≤ avail.length then Except.ok (avail.take n)
  else if avail.length = 0 then Except.error ReadErr.eof
  else Except.error ReadErr.unexpectedEof

/-- The body of the per-entry loop of `applyLayers`: classify the raw name
as a whiteout or ordinary entry; for ordinary regular files read the
declared size eagerly; store ordinary entries at the cleaned path. -/
def applyEntry (fs : Snapshot) (it : TarItem) : Except ApplyError Snapshot :=
  if isWhiteoutFile it.header.name then
    Except.ok (handleWhiteout fs it.header.name)
  else
    match (if it.header.typeflag = '0' then readFull it.avail it.header.size
           else Except.ok []) with
    | Except.error e => Except.error (ApplyError.fileData e)
    | Except.ok data => Except.ok (mapInsert fs (cleanPath it.header.name) ⟨it.header, data⟩)

/-- Processing of one layer's tar stream from a given snapshot state. -/
def applyStream (fs : Snapshot) (items : List TarItem) : Except ApplyError Snapshot :=
  items.foldlM applyEntry fs

/-- `imageExporter.applyLayers`: fold all layers, oldest first, over the
empty snapshot. -/
def applyLayers (layers : List (List TarItem)) : Except ApplyError Snapshot :=
  layers.foldlM applyStream []

/-- The entry a successful ordinary insert stores for a stream item. -/
def mkEntry (it : TarItem) : FileEntry :=
  ⟨it.header, if it.header.typeflag = '0' then it.avail.take it.header.size else []⟩

def hdr (name : String) (flag : Char) (size : Nat) : TarHeader :=
  ⟨str name, flag, [], size, 420, 0, 0, GoTime.unix 7 0, GoTime.unix 8 0, GoTime.unix 9 0⟩

example :
    applyLayers [[⟨hdr "d/x" '0' 1, [49]⟩],
                 [⟨hdr "d/.wh..wh..opq" '0' 0, []⟩, ⟨hdr "d/y" '0' 1, [50]⟩]] =
      Except.ok [(str "d/y", ⟨hdr "d/y" '0' 1, [50]⟩)] := by rfl

example :
    handleWhiteout [(str "d/", ⟨hdr "d/" '5' 0, []⟩), (str "d", ⟨hdr "d" '5' 0, []⟩)]
      (str "d/.wh..wh..opq") = [(str "d", ⟨hdr "d" '5' 0, []⟩)] := by decide

example :
    handleWhiteout [(str ".", ⟨hdr "." '5' 0, []⟩), (str "e", ⟨hdr "e" '0' 0, []⟩)]
      (str ".wh..wh..opq") = [] := by decide

example :
    handleWhiteout [(str "d/x", ⟨hdr "d/x" '0' 0, []⟩)] (str "/d/.wh..wh..opq") =
      [(str "d/x", ⟨hdr "d/x" '0' 0, []⟩)] := by decide

example :
    handleWhiteout
      [(str "d/sub", ⟨hdr "d/sub" '5' 0, []⟩),
       (str "d/sub/file", ⟨hdr "d/sub/file" '0' 0, []⟩),
       (str "d/other", ⟨hdr "d/other" '0' 0, []⟩)] (str "d/.wh.sub") =
      [(str "d/other", ⟨hdr "d/other" '0' 0, []⟩)] := by decide

example :
    applyLayers [[⟨hdr "a" '0' 5, [0, 0, 0]⟩]] =
      Except.error (ApplyError.fileData ReadErr.unexpectedEof) := by rfl

/-- `imageExporter.getTypePriority`: directories first, links last,
everything else in the middle. -/
def getTypePriority (t : Char) : Nat :=
  if t = '5' then 1
  else if t = '0' then 2
  else if t = '2' ∨ t = '1' then 3
  else 2

/-- The `less` closure passed to `sort.Slice` in `sortTarEntries`:
type priority, then (for two directories) slash depth, then the raw
header name lexicographically. -/
def entryLess (a b : FileEntry) : Bool :=
  let pA := getTypePriority a.header.typeflag
  let pB := getTypePriority b.header.typeflag
  if pA ≠ pB then decide (pA < pB)
  else if a.header.typeflag = '5' ∧ b.header.typeflag = '5' then
    let dA := slashCount a.header.name
    let dB := slashCount b.header.name
    if dA ≠ dB then decide (dA < dB)
    else listLt a.header.name b.header.name
  else listLt a.header.name b.header.name

/-- The non-strict order realized by sorting with `entryLess`: `a` may
come before `b` exactly when `entryLess b a` is false. -/
def tarLe (a b : FileEntry) : Prop := entryLess b a = false

instance : DecidableRel tarLe :=
  fun a b => inferInstanceAs (Decidable (entryLess b a = false))

/-- `imageExporter.sortTarEntries`: collect the map's entries and sort
them with the `entryLess` comparator.  `sort.Slice` guarantees exactly a
permutation in which no later element is `entryLess` an earlier one;
insertion sort realizes such a permutation. -/
def sortTarEntries (fs : Snapshot) : List FileEntry :=
  List.insertionSort tarLe (fs.map (fun kv => kv.2))

/-- The metadata normalization the serializer applies before writing:
modification time forced to the Unix epoch, access and change times
cleared to the zero value. -/
def normalizeHeader (h : TarHeader) : TarHeader :=
  { h with modTime := GoTime.unix 0 0,
           accessTime := GoTime.zero,
           changeTime := GoTime.zero }

/-- One record of the output stream: the normalized header, followed by
the content bytes for nonempty regular files and nothing otherwise. -/
def writeTarEntry (e : FileEntry) : TarHeader × List Nat :=
  let h := normalizeHeader e.header
  (h, if h.typeflag = '0' ∧ 0 < e.data.length then e.data else [])

/-- `imageExporter.writeFilesystemTar` (sorting version): serialize the
sorted entries.  The output stream is modelled as the list of written
(header, data) records; the tar byte encoding is injective in them. -/
def writeFilesystemTar (fs : Snapshot) : List (TarHeader × List Nat) :=
  (sortTarEntries fs).map writeTarEntry

/-- The duplicate `writeFilesystemTar` of the second source copy, which
has no sort pass: it ranges directly over the Go map, i.e. emits the
entries in whatever enumeration order the run happens to produce. -/
def writeFilesystemTarUnsorted (fs : Snapshot) : List (TarHeader × List Nat) :=
  fs.map (fun kv => writeTarEntry kv.2)

/-- State of the snapshot map after the write loop: the loop assigns the
three time fields of `entry.header` in place through the map's shared
`*fileEntry` pointers before writing each entry, and every map value
occurs exactly once in the sorted slice, so afterwards every stored
header is normalized. -/
def serializedSnapshot (fs : Snapshot) : Snapshot :=
  fs.map (fun kv => (kv.1, ⟨normalizeHeader kv.2.header, kv.2.data⟩))

example :
    (sortTarEntries
      [(str "link_to_file", ⟨hdr "link_to_file" '2' 0, []⟩),
       (str "target_file", ⟨hdr "target_file" '0' 12, [1]⟩),
       (str "subdir/nested_file", ⟨hdr "subdir/nested_file" '0' 6, [2]⟩),
       (str "subdir/", ⟨hdr "subdir/" '5' 0, []⟩)]).map (fun e => e.header.name) =
    [str "subdir/", str "subdir/nested_file", str "target_file", str "link_to_file"] := by
  decide

theorem listLt_iff {a b : List Char} : listLt a b = true ↔ List.Lex (· < ·) a b := by
  induction a generalizing b with
  | nil =>
    cases b with
    | nil => exact iff_of_false (by simp [listLt]) (List.Lex.not_nil_right _ _)
    | cons y ys => exact iff_of_true rfl List.Lex.nil
  | cons x xs ih =>
    cases b with
    | nil => exact iff_of_false (by simp [listLt]) (List.Lex.not_nil_right _ _)
    | cons y ys =>
      simp only [listLt]
      rcases lt_trichotomy x y with h | h | h
      · rw [if_pos h]
        exact iff_of_true rfl (List.Lex.rel h)
      · subst h
        rw [if_neg (lt_irrefl x), if_neg (lt_irrefl x), ih]
        exact List.Lex.cons_iff.symm
      · rw [if_neg (lt_asymm h), if_pos h]
        refine iff_of_false (by simp) ?_
        intro hl
        cases hl with
        | cons _ => exact lt_irrefl _ h
        | rel hr => exact lt_asymm h hr

theorem lexLt_of_strict_extension {a s : List Char} (hs : s ≠ []) :
    List.Lex (· < ·) a (a ++ s) := by
  induction a with
  | nil =>
    cases s with
    | nil => exact absurd rfl hs
    | cons c cs => exact List.Lex.nil
  | cons x xs ih => exact List.Lex.cons ih

theorem getTypePriority_eq_one {t : Char} : getTypePriority t = 1 ↔ t = '5' := by
  unfold getTypePriority
  split_ifs with h1 h2 h3
  · exact iff_of_true rfl h1
  · exact iff_of_false (by omega) h1
  · exact iff_of_false (by omega) h1
  · exact iff_of_false (by omega) h1

/-- The three-component sort key realized by `entryLess`: type priority,
slash depth for directories, raw name. -/
def ekey (e : FileEntry) : Nat × Nat × List Char :=
  (getTypePriority e.header.typeflag,
   if e.header.typeflag = '5' then slashCount e.header.name else 0,
   e.header.name)

/-- Strict lexicographic comparison of sort keys. -/
def keyLt (x y : Nat × Nat × List Char) : Bool :=
  if x.1 ≠ y.1 then decide (x.1 < y.1)
  else if x.2.1 ≠ y.2.1 then decide (x.2.1 < y.2.1)
  else listLt x.2.2 y.2.2

instance : IsTrichotomous Char (· < ·) := ⟨lt_trichotomy⟩

instance : IsIrrefl Char (· < ·) := ⟨lt_irrefl⟩

instance : IsTrans Char (· < ·) := ⟨fun _ _ _ => lt_trans⟩

instance : IsAsymm Char (· < ·) := ⟨fun _ _ h1 h2 => absurd h2 (lt_asymm h1)⟩

theorem lexLt_trichotomy (a b : List Char) :
    List.Lex (· < ·) a b ∨ a = b ∨ List.Lex (· < ·) b a :=
  trichotomous_of (List.Lex (· < ·)) a b

theorem lexLt_trans {a b c : List Char} (h1 : List.Lex (· < ·) a b)
    (h2 : List.Lex (· < ·) b c) : List.Lex (· < ·) a c :=
  trans_of (List.Lex (· < ·)) h1 h2

theorem lexLt_asymm {a b : List Char} (h1 : List.Lex (· < ·) a b) :
    ¬ List.Lex (· < ·) b a :=
  asymm_of (List.Lex (· < ·)) h1

theorem entryLess_eq_keyLt (a b : FileEntry) :
    entryLess a b = keyLt (ekey a) (ekey b) := by
  simp only [entryLess, keyLt, ekey]
  by_cases hp : getTypePriority a.header.typeflag = getTypePriority b.header.typeflag
  · rw [if_neg (not_not_intro hp), if_neg (not_not_intro hp)]
    by_cases ha : a.header.typeflag = '5'
    · by_cases hb : b.header.typeflag = '5'
      · simp [ha, hb]
      · exact absurd (getTypePriority_eq_one.mp (hp ▸ getTypePriority_eq_one.mpr ha)) hb
    · by_cases hb : b.header.typeflag = '5'
      · exact absurd (getTypePriority_eq_one.mp (hp.symm ▸ getTypePriority_eq_one.mpr hb)) ha
      · simp [ha, hb]
  · rw [if_pos hp, if_pos hp]

theorem keyLt_iff {x y : Nat × Nat × List Char} :
    keyLt x y = true ↔
      x.1 < y.1 ∨ (x.1 = y.1 ∧ (x.2.1 < y.2.1 ∨
        (x.2.1 = y.2.1 ∧ List.Lex (· < ·) x.2.2 y.2.2))) := by
  unfold keyLt
  split_ifs with h1 h2
  · rw [decide_eq_true_eq]
    constructor
    · exact fun h => Or.inl h
    · rintro (h | ⟨e, _⟩)
      · exact h
      · exact absurd e h1
  · rw [decide_eq_true_eq]
    have e1 : x.1 = y.1 := not_not.mp h1
    constructor
    · exact fun h => Or.inr ⟨e1, Or.inl h⟩
    · rintro (h | ⟨_, h | ⟨e, _⟩⟩)
      · exact absurd e1 (Nat.ne_of_lt h)
      · exact h
      · exact absurd e h2
  · have e1 : x.1 = y.1 := not_not.mp h1
    have e2 : x.2.1 = y.2.1 := not_not.mp h2
    rw [listLt_iff]
    constructor
    · exact fun h => Or.inr ⟨e1, Or.inr ⟨e2, h⟩⟩
    · rintro (h | ⟨_, h | ⟨_, h⟩⟩)
      · exact absurd e1 (Nat.ne_of_lt h)
      · exact absurd e2 (Nat.ne_of_lt h)
      · exact h

theorem keyLt_asymm {x y : Nat × Nat × List Char}
    (h1 : keyLt x y = true) (h2 : keyLt y x = true) : False := by
  rw [keyLt_iff] at h1 h2
  rcases h1 with h1 | ⟨e1, h1 | ⟨f1, h1⟩⟩ <;>
    rcases h2 with h2 | ⟨e2, h2 | ⟨f2, h2⟩⟩ <;> try omega
  exact lexLt_asymm h1 h2

theorem keyLt_negtrans {x y z : Nat × Nat × List Char} (h : keyLt z x = true) :
    keyLt z y = true ∨ keyLt y x = true := by
  rw [keyLt_iff] at h
  rw [keyLt_iff, keyLt_iff]
  rcases Nat.lt_trichotomy z.1 y.1 with c1 | c1 | c1
  · exact Or.inl (Or.inl c1)
  · rcases Nat.lt_trichotomy z.2.1 y.2.1 with c2 | c2 | c2
    · exact Or.inl (Or.inr ⟨c1, Or.inl c2⟩)
    · rcases lexLt_trichotomy z.2.2 y.2.2 with c3 | c3 | c3
      · exact Or.inl (Or.inr ⟨c1, Or.inr ⟨c2, c3⟩⟩)
      · -- z and y have identical keys: move h over to y
        rcases h with h | ⟨e, h | ⟨f, h⟩⟩
        · exact Or.inr (Or.inl (c1 ▸ h))
        · exact Or.inr (Or.inr ⟨c1 ▸ e, Or.inl (c2 ▸ h)⟩)
        · exact Or.inr (Or.inr ⟨c1 ▸ e, Or.inr ⟨c2 ▸ f, c3 ▸ h⟩⟩)
      · -- y is strictly below z: chain through to x
        rcases h with h | ⟨e, h | ⟨f, h⟩⟩
        · exact Or.inr (Or.inl (c1 ▸ h))
        · exact Or.inr (Or.inr ⟨c1 ▸ e, Or.inl (c2 ▸ h)⟩)
        · exact Or.inr (Or.inr ⟨c1 ▸ e, Or.inr ⟨c2 ▸ f, lexLt_trans c3 h⟩⟩)
    · rcases h with h | ⟨e, h | ⟨f, h⟩⟩
      · exact Or.inr (Or.inl (c1 ▸ h))
      · exact Or.inr (Or.inr ⟨c1 ▸ e, Or.inl (by omega)⟩)
      · exact Or.inr (Or.inr ⟨c1 ▸ e, Or.inl (by omega)⟩)
  · rcases h with h | ⟨e, h | ⟨f, h⟩⟩
    · exact Or.inr (Or.inl (by omega))
    · exact Or.inr (Or.inl (by omega))
    · exact Or.inr (Or.inl (by omega))

theorem keyLt_connex_of_name_ne {x y : Nat × Nat × List Char} (h : x.2.2 ≠ y.2.2) :
    keyLt x y = true ∨ keyLt y x = true := by
  rw [keyLt_iff, keyLt_iff]
  rcases Nat.lt_trichotomy x.1 y.1 with c1 | c1 | c1
  · exact Or.inl (Or.inl c1)
  · rcases Nat.lt_trichotomy x.2.1 y.2.1 with c2 | c2 | c2
    · exact Or.inl (Or.inr ⟨c1, Or.inl c2⟩)
    · rcases lexLt_trichotomy x.2.2 y.2.2 with c3 | c3 | c3
      · exact Or.inl (Or.inr ⟨c1, Or.inr ⟨c2, c3⟩⟩)
      · exact absurd c3 h
      · exact Or.inr (Or.inr ⟨c1.symm, Or.inr ⟨c2.symm, c3⟩⟩)
    · exact Or.inr (Or.inr ⟨c1.symm, Or.inl c2⟩)
  · exact Or.inr (Or.inl c1)

theorem entryLess_asymm {a b : FileEntry}
    (h1 : entryLess a b = true) (h2 : entryLess b a = true) : False :=
  keyLt_asymm (entryLess_eq_keyLt a b ▸ h1) (entryLess_eq_keyLt b a ▸ h2)

instance : IsTotal FileEntry tarLe := by
  constructor
  intro a b
  by_cases h : entryLess b a = true
  · refine Or.inr ?_
    unfold tarLe
    cases hab : entryLess a b with
    | false => rfl
    | true => exact absurd (entryLess_asymm hab h) id
  · exact Or.inl (by unfold tarLe; simpa using h)

instance : IsTrans FileEntry tarLe := by
  constructor
  intro a b c h1 h2
  unfold tarLe at h1 h2 ⊢
  cases hca : entryLess c a with
  | false => rfl
  | true =>
    exfalso
    have hk : keyLt (ekey c) (ekey a) = true := entryLess_eq_keyLt c a ▸ hca
    rcases keyLt_negtrans (y := ekey b) hk with hcb | hba
    · exact absurd (entryLess_eq_keyLt c b ▸ hcb) (by simp [h2])
    · exact absurd (entryLess_eq_keyLt b a ▸ hba) (by simp [h1])

theorem mapLookup_filterKey (q : List Char → Bool) (fs : Snapshot) (k : List Char) :
    mapLookup (fs.filter (fun kv => q kv.1)) k =
      if q k = true then mapLookup fs k else none := by
  induction fs with
  | nil => simp [mapLookup]
  | cons kv rest ih =>
    by_cases hq : q kv.1 = true
    · by_cases hk : kv.1 = k
      · subst hk
        simp [List.filter_cons, hq, mapLookup]
      · simp [List.filter_cons, hq, mapLookup, hk, ih]
    · by_cases hk : kv.1 = k
      · subst hk
        simp [List.filter_cons, hq, mapLookup, ih]
      · simp [List.filter_cons, hq, mapLookup, hk, ih]

theorem mapLookup_insert (fs : Snapshot) (k k' : List Char) (v : FileEntry) :
    mapLookup (mapInsert fs k v) k' = if k = k' then some v else mapLookup fs k' := by
  unfold mapInsert
  induction fs with
  | nil =>
    by_cases hk : k = k'
    · subst hk; simp [mapLookup]
    · simp [mapLookup, hk]
  | cons kv rest ih =>
    simp only [ne_eq, decide_not] at ih ⊢
    by_cases hkv : kv.1 = k
    · rw [List.filter_cons_of_neg (by simp [hkv])]
      rw [ih]
      by_cases hk : k = k'
      · simp [hk]
      · rw [if_neg hk, if_neg hk]
        have hne : kv.1 ≠ k' := fun h => hk (hkv ▸ h)
        simp [mapLookup, hne]
    · rw [List.filter_cons_of_pos (by simp [hkv])]
      by_cases hk2 : kv.1 = k'
      · have hkk : ¬ k = k' := fun h => hkv (h ▸ hk2)
        rw [if_neg hkk]
        simp [mapLookup, hk2]
      · simp only [List.cons_append]
        have hstep : mapLookup (kv :: (List.filter (fun kv => !decide (kv.1 = k)) rest ++ [(k, v)])) k' =
            mapLookup (List.filter (fun kv => !decide (kv.1 = k)) rest ++ [(k, v)]) k' := by
          simp [mapLookup, hk2]
        rw [hstep, ih]
        by_cases hk : k = k'
        · simp [hk]
        · simp [hk, mapLookup, hk2]

theorem handleWhiteout_opaque_lookup (fs : Snapshot) (m d : List Char)
    (hb : goBase m = opqMark) (hd : goDir m = d) (p : List Char) :
    mapLookup (handleWhiteout fs m) p =
      if goHasPfx p (if d = str "." then [] else d ++ str "/") = true then none
      else mapLookup fs p := by
  subst hd
  have h1 : handleWhiteout fs m =
      fs.filter (fun kv =>
        !(goHasPfx kv.1 (if goDir m = str "." then [] else goDir m ++ str "/"))) := by
    simp [handleWhiteout, hb]
  rw [h1, mapLookup_filterKey (fun k =>
    !(goHasPfx k (if goDir m = str "." then [] else goDir m ++ str "/"))) fs p]
  cases hpfx : goHasPfx p (if goDir m = str "." then [] else goDir m ++ str "/") <;> simp [hpfx]

theorem handleWhiteout_regular_lookup (fs : Snapshot) (m b t : List Char)
    (hb : goBase m = b) (hne : b ≠ opqMark) (hw : goHasPfx b whMark = true)
    (ht : t = cleanPath (goJoin (goDir m) (goTrimPfx b whMark))) (p : List Char) :
    mapLookup (handleWhiteout fs m) p =
      if p = t ∨ goHasPfx p (t ++ str "/") = true then none
      else mapLookup fs p := by
  subst hb
  subst ht
  have h1 : handleWhiteout fs m =
      (mapDelete fs (cleanPath (goJoin (goDir m) (goTrimPfx (goBase m) whMark)))).filter
        (fun kv =>
          !(goHasPfx kv.1
            (cleanPath (goJoin (goDir m) (goTrimPfx (goBase m) whMark)) ++ str "/"))) := by
    simp [handleWhiteout, hne, hw]
  rw [h1]
  rw [mapLookup_filterKey (fun k =>
    !(goHasPfx k (cleanPath (goJoin (goDir m) (goTrimPfx (goBase m) whMark)) ++ str "/")))]
  unfold mapDelete
  rw [mapLookup_filterKey (fun k =>
    decide (k ≠ cleanPath (goJoin (goDir m) (goTrimPfx (goBase m) whMark))))]
  by_cases hp1 : p = cleanPath (goJoin (goDir m) (goTrimPfx (goBase m) whMark))
  · simp [hp1]
  · by_cases hp2 : goHasPfx p
      (cleanPath (goJoin (goDir m) (goTrimPfx (goBase m) whMark)) ++ str "/") = true
    · simp [hp1, hp2]
    · simp [hp1, hp2]

theorem handleWhiteout_subset {fs : Snapshot} {m : List Char} {kv : List Char × FileEntry}
    (h : kv ∈ handleWhiteout fs m) : kv ∈ fs := by
  simp only [handleWhiteout, mapDelete] at h
  split_ifs at h
  all_goals first
    | exact h
    | exact (List.mem_filter.mp h).1
    | exact (List.mem_filter.mp ((List.mem_filter.mp h).1)).1

theorem applyStream_cons (fs : Snapshot) (it : TarItem) (rest : List TarItem) :
    applyStream fs (it :: rest) =
      match applyEntry fs it with
      | Except.ok fs1 => applyStream fs1 rest
      | Except.error e => Except.error e := by
  unfold applyStream
  rw [List.foldlM_cons]
  cases applyEntry fs it <;> rfl

theorem applyStream_append (fs : Snapshot) (l1 l2 : List TarItem) :
    applyStream fs (l1 ++ l2) =
      match applyStream fs l1 with
      | Except.ok fs1 => applyStream fs1 l2
      | Except.error e => Except.error e := by
  induction l1 generalizing fs with
  | nil => rfl
  | cons it rest ih =>
    rw [List.cons_append, applyStream_cons, applyStream_cons]
    cases applyEntry fs it with
    | ok fs1 => exact ih fs1
    | error e => rfl

theorem applyLayers_eq_applyStream (layers : List (List TarItem)) :
    applyLayers layers = applyStream [] layers.flatten := by
  suffices h : ∀ fs, List.foldlM applyStream fs layers = applyStream fs layers.flatten from h []
  induction layers with
  | nil => intro fs; rfl
  | cons L rest ih =>
    intro fs
    rw [List.foldlM_cons, List.flatten_cons, applyStream_append]
    cases hL : applyStream fs L with
    | ok fs1 =>
      show (Except.ok fs1 >>= fun fs1 => List.foldlM applyStream fs1 rest) = _
      simpa using ih fs1
    | error e => rfl

theorem applyEntry_ok {it : TarItem} (fs : Snapshot)
    (hw : isWhiteoutFile it.header.name = false)
    (hd : it.header.typeflag = '0' → it.header.size ≤ it.avail.length) :
    applyEntry fs it = Except.ok (mapInsert fs (cleanPath it.header.name) (mkEntry it)) := by
  unfold applyEntry
  rw [if_neg (by simp [hw])]
  by_cases hf : it.header.typeflag = '0'
  · rw [if_pos hf]
    unfold readFull
    rw [if_pos (hd hf)]
    unfold mkEntry
    rw [if_pos hf]
  · rw [if_neg hf]
    unfold mkEntry
    rw [if_neg hf]

/-- The stream item that last writes path `p`, scanning items left to
right with later writes taking precedence. -/
def lastWrite (p : List Char) (items : List TarItem) : Option TarItem :=
  match items with
  | [] => none
  | it :: rest =>
    match lastWrite p rest with
    | some r => some r
    | none => if cleanPath it.header.name = p then some it else none

theorem applyStream_union (items : List TarItem) (fs0 : Snapshot)
    (hw : ∀ it ∈ items, isWhiteoutFile it.header.name = false)
    (hd : ∀ it ∈ items, it.header.typeflag = '0' → it.header.size ≤ it.avail.length) :
    ∃ fs, applyStream fs0 items = Except.ok fs ∧
      ∀ p, mapLookup fs p =
        match lastWrite p items with
        | some it => some (mkEntry it)
        | none => mapLookup fs0 p := by
  induction items generalizing fs0 with
  | nil => exact ⟨fs0, rfl, fun p => rfl⟩
  | cons it rest ih =>
    obtain ⟨fs, heq, hlook⟩ := ih (mapInsert fs0 (cleanPath it.header.name) (mkEntry it))
      (fun x hx => hw x (List.mem_cons_of_mem _ hx))
      (fun x hx => hd x (List.mem_cons_of_mem _ hx))
    refine ⟨fs, ?_, ?_⟩
    · rw [applyStream_cons,
        applyEntry_ok fs0 (hw it (List.mem_cons_self _ _)) (hd it (List.mem_cons_self _ _))]
      exact heq
    · intro p
      rw [hlook p]
      cases hr : lastWrite p rest with
      | some r => simp [lastWrite, hr]
      | none =>
        rw [mapLookup_insert]
        by_cases hp : cleanPath it.header.name = p
        · simp [lastWrite, hr, hp]
        · simp [lastWrite, hr, hp]

theorem goBase_drop_slash {rest : List Char} (h : rest ≠ []) :
    goBase ('/' :: rest) = goBase rest := by
  unfold goBase stripTrailingSlashesRev
  rw [if_neg (List.cons_ne_nil _ _), if_neg h, List.reverse_cons, List.dropWhile_append]
  cases hrr : rest.reverse.dropWhile (fun c => c = '/') with
  | nil => simp [hrr]
  | cons c cs =>
    simp only [hrr, List.isEmpty_cons, Bool.false_eq_true, if_false]
    rw [if_neg (by simp), if_neg (by simp [hrr])]
    rw [List.takeWhile_append]
    split_ifs with hlen
    · have heq : (c :: cs).takeWhile (fun ch => decide (ch ≠ '/')) = c :: cs :=
        (List.takeWhile_sublist _).eq_of_length hlen
      rw [show List.takeWhile (fun ch => decide (ch ≠ '/')) ['/'] = [] from rfl,
        List.append_nil, heq]
    · rfl

theorem cleanPath_slash (xs : List Char) :
    cleanPath ('/' :: xs) = if xs = [] then str "." else xs := by
  have hs : str "/" = ['/'] := by decide
  have h1 : goTrimPfx ('/' :: xs) (str "/") = xs := by
    unfold goTrimPfx goHasPfx
    rw [hs]
    rw [if_pos (by simp)]
    rfl
  simp only [cleanPath]
  rw [h1]

theorem cleanPath_noslash {c : Char} {rest : List Char} (hc : c ≠ '/') :
    cleanPath (c :: rest) = c :: rest := by
  have hs : str "/" = ['/'] := by decide
  have h1 : goTrimPfx (c :: rest) (str "/") = c :: rest := by
    unfold goTrimPfx goHasPfx
    rw [hs]
    rw [if_neg ?hne]
    case hne =>
      intro hp
      rcases List.isPrefixOf_iff_prefix.mp hp with ⟨t, ht⟩
      cases ht
      exact hc rfl
  simp only [cleanPath]
  rw [h1, if_neg (List.cons_ne_nil _ _)]

theorem goBase_cleanPath_noMark {n : List Char}
    (h : goHasPfx (goBase n) whMark = false) :
    goHasPfx (goBase (cleanPath n)) whMark = false := by
  cases n with
  | nil => decide
  | cons c rest =>
    by_cases hc : c = '/'
    · subst hc
      rw [cleanPath_slash]
      cases rest with
      | nil => decide
      | cons d ds =>
        rw [if_neg (List.cons_ne_nil _ _)]
        rw [goBase_drop_slash (List.cons_ne_nil _ _)] at h
        exact h
    · rw [cleanPath_noslash hc]
      exact h

/-- The no-marker invariant of snapshot states used for the whiteout-name
claims: no key and no stored header name has a `.wh.`-prefixed final
component. -/
def noMarkerInv (fs : Snapshot) : Prop :=
  ∀ kv ∈ fs, goHasPfx (goBase kv.1) whMark = false ∧
    goHasPfx (goBase kv.2.header.name) whMark = false

theorem applyEntry_noMarker {fs fs1 : Snapshot} {it : TarItem}
    (hinv : noMarkerInv fs) (h : applyEntry fs it = Except.ok fs1) :
    noMarkerInv fs1 := by
  by_cases hwh : isWhiteoutFile it.header.name = true
  · unfold applyEntry at h
    rw [if_pos hwh] at h
    cases h
    exact fun kv hkv => hinv kv (handleWhiteout_subset hkv)
  · have hb : goHasPfx (goBase it.header.name) whMark = false := by
      simpa [isWhiteoutFile] using hwh
    unfold applyEntry at h
    rw [if_neg hwh] at h
    revert h
    cases hread : (if it.header.typeflag = '0' then readFull it.avail it.header.size
        else Except.ok ([] : List Nat)) with
    | error e => intro h; cases h
    | ok data =>
      intro h
      cases h
      intro kv hkv
      rcases List.mem_append.mp hkv with hl | hr
      · exact hinv kv (List.mem_filter.mp hl).1
      · have hkv2 : kv = (cleanPath it.header.name, ⟨it.header, data⟩) :=
          List.mem_singleton.mp hr
        subst hkv2
        exact ⟨goBase_cleanPath_noMark hb, hb⟩

theorem applyStream_noMarker (items : List TarItem) :
    ∀ fs0 fs, noMarkerInv fs0 → applyStream fs0 items = Except.ok fs → noMarkerInv fs := by
  induction items with
  | nil => intro fs0 fs h0 heq; cases heq; exact h0
  | cons it rest ih =>
    intro fs0 fs h0 heq
    rw [applyStream_cons] at heq
    revert heq
    cases happ : applyEntry fs0 it with
    | error e => intro heq; cases heq
    | ok fs1 => exact fun heq => ih fs1 fs (applyEntry_noMarker h0 happ) heq

theorem getTypePriority_ge_two {t : Char} (h : t ≠ '5') : 2 ≤ getTypePriority t := by
  unfold getTypePriority
  split_ifs with h1 h2 h3
  · exact absurd h1 h
  · omega
  · omega
  · omega

theorem getTypePriority_le_three (t : Char) : getTypePriority t ≤ 3 := by
  unfold getTypePriority
  split_ifs <;> omega

theorem getTypePriority_eq_three {t : Char} :
    getTypePriority t = 3 ↔ (t = '2' ∨ t = '1') := by
  unfold getTypePriority
  split_ifs with h1 h2 h3
  · refine iff_of_false (by omega) ?_
    rintro (h | h)
    · exact absurd (h1.symm.trans h) (by decide)
    · exact absurd (h1.symm.trans h) (by decide)
  · refine iff_of_false (by omega) ?_
    rintro (h | h)
    · exact absurd (h2.symm.trans h) (by decide)
    · exact absurd (h2.symm.trans h) (by decide)
  · exact iff_of_true rfl h3
  · exact iff_of_false (by omega) h3

theorem tarLe_safe {a b : FileEntry} (h : tarLe a b) :
    (b.header.typeflag = '5' → a.header.typeflag = '5') ∧
    ((a.header.typeflag = '2' ∨ a.header.typeflag = '1') →
      (b.header.typeflag = '2' ∨ b.header.typeflag = '1')) ∧
    (b.header.typeflag = '5' →
      ¬ (b.header.name <+: a.header.name ∧ b.header.name ≠ a.header.name)) ∧
    (a.header.typeflag = '5' ∧ b.header.typeflag = '5' →
      slashCount a.header.name ≤ slashCount b.header.name ∧
      (slashCount a.header.name = slashCount b.header.name →
        ¬ List.Lex (· < ·) b.header.name a.header.name)) := by
  have hk : keyLt (ekey b) (ekey a) = false := by
    rw [← entryLess_eq_keyLt]
    exact h
  have hnot : ¬ ((ekey b).1 < (ekey a).1 ∨ ((ekey b).1 = (ekey a).1 ∧
      ((ekey b).2.1 < (ekey a).2.1 ∨ ((ekey b).2.1 = (ekey a).2.1 ∧
        List.Lex (· < ·) (ekey b).2.2 (ekey a).2.2)))) := by
    rw [← keyLt_iff]
    simp [hk]
  push_neg at hnot
  obtain ⟨hnp, himp⟩ := hnot
  simp only [ekey] at hnp himp
  have c1 : b.header.typeflag = '5' → a.header.typeflag = '5' := by
    intro hbd
    by_contra had
    have hpb : getTypePriority b.header.typeflag = 1 := by rw [hbd]; rfl
    have hpa : 2 ≤ getTypePriority a.header.typeflag := getTypePriority_ge_two had
    omega
  refine ⟨c1, ?_, ?_, ?_⟩
  · intro hal
    by_contra hbl
    have hpa : getTypePriority a.header.typeflag = 3 := getTypePriority_eq_three.mpr hal
    have hpb3 : getTypePriority b.header.typeflag ≠ 3 :=
      fun hc => hbl (getTypePriority_eq_three.mp hc)
    have hpb : getTypePriority b.header.typeflag ≤ 3 := getTypePriority_le_three _
    omega
  · intro hbd hpre
    obtain ⟨hp, hne⟩ := hpre
    have ha5 : a.header.typeflag = '5' := c1 hbd
    obtain ⟨t, ht⟩ := hp
    have htne : t ≠ [] := by
      intro h0
      rw [h0, List.append_nil] at ht
      exact hne ht
    have hpeq : getTypePriority b.header.typeflag = getTypePriority a.header.typeflag := by
      rw [hbd, ha5]
    obtain ⟨hd1, hd2⟩ := himp hpeq
    rw [if_pos hbd, if_pos ha5] at hd1 hd2
    have hcount : slashCount a.header.name = slashCount b.header.name + slashCount t := by
      rw [← ht]
      unfold slashCount
      rw [List.count_append]
    have hceq : slashCount b.header.name = slashCount a.header.name := by omega
    refine hd2 hceq ?_
    rw [← ht]
    exact lexLt_of_strict_extension htne
  · rintro ⟨ha5, hb5⟩
    have hpeq : getTypePriority b.header.typeflag = getTypePriority a.header.typeflag := by
      rw [hb5, ha5]
    obtain ⟨hd1, hd2⟩ := himp hpeq
    rw [if_pos hb5, if_pos ha5] at hd1 hd2
    constructor
    · omega
    · intro he
      exact hd2 he.symm

theorem sortTarEntries_sorted (fs : Snapshot) :
    List.Sorted tarLe (sortTarEntries fs) :=
  List.sorted_insertionSort tarLe _

theorem sortTarEntries_perm (fs : Snapshot) :
    List.Perm (sortTarEntries fs) (fs.map (fun kv => kv.2)) :=
  List.perm_insertionSort tarLe _

theorem entryLess_of_tarLe_ne {a b : FileEntry} (h : tarLe a b)
    (hn : a.header.name ≠ b.header.name) : entryLess a b = true := by
  rcases keyLt_connex_of_name_ne (x := ekey a) (y := ekey b) (by simpa [ekey] using hn) with
    hab | hba
  · rw [entryLess_eq_keyLt]
    exact hab
  · exfalso
    unfold tarLe at h
    rw [entryLess_eq_keyLt] at h
    exact absurd hba (by simp [h])

theorem sortTarEntries_eq_of_perm {L1 L2 : Snapshot} (hperm : List.Perm L1 L2)
    (hnd : (L1.map (fun kv => kv.2.header.name)).Nodup) :
    sortTarEntries L1 = sortTarEntries L2 := by
  have hp : List.Perm (sortTarEntries L1) (sortTarEntries L2) :=
    (sortTarEntries_perm L1).trans ((hperm.map _).trans (sortTarEntries_perm L2).symm)
  have hnd1 : (List.map (fun e => e.header.name) (sortTarEntries L1)).Nodup := by
    refine (((sortTarEntries_perm L1).map (fun e => e.header.name)).nodup_iff).mpr ?_
    rw [List.map_map]
    exact hnd
  have hnd2 : (List.map (fun e => e.header.name) (sortTarEntries L2)).Nodup :=
    ((hp.map (fun e => e.header.name)).nodup_iff).mp hnd1
  have hstrict : ∀ (L : Snapshot),
      (List.map (fun e => e.header.name) (sortTarEntries L)).Nodup →
      List.Pairwise (fun a b => entryLess a b = true) (sortTarEntries L) := by
    intro L hndL
    have hs : List.Pairwise tarLe (sortTarEntries L) := sortTarEntries_sorted L
    have hne : List.Pairwise (fun a b : FileEntry => a.header.name ≠ b.header.name)
        (sortTarEntries L) := (List.pairwise_map).mp hndL
    exact (hs.and hne).imp (fun hab => entryLess_of_tarLe_ne hab.1 hab.2)
  haveI : IsAntisymm FileEntry (fun a b => entryLess a b = true) :=
    ⟨fun a b h1 h2 => (entryLess_asymm h1 h2).elim⟩
  exact List.eq_of_perm_of_sorted hp (hstrict L1 hnd1) (hstrict L2 hnd2)

theorem mapLookup_serialized (fs : Snapshot) (p : List Char) :
    mapLookup (serializedSnapshot fs) p =
      (mapLookup fs p).map (fun e => ⟨normalizeHeader e.header, e.data⟩) := by
  unfold serializedSnapshot
  induction fs with
  | nil => rfl
  | cons kv rest ih =>
    by_cases h : kv.1 = p
    · simp [mapLookup, h]
    · simp [mapLookup, h, ih]

theorem applyStream_error_of_bad (items : List TarItem) :
    ∀ fs0 : Snapshot,
    (∃ it ∈ items, isWhiteoutFile it.header.name = false ∧
      it.header.typeflag = '0' ∧ it.avail.length < it.header.size) →
    ∃ c, applyStream fs0 items = Except.error (ApplyError.fileData c) := by
  induction items with
  | nil =>
    rintro fs0 ⟨it, h, _⟩
    cases h
  | cons it rest ih =>
    rintro fs0 ⟨x, hx, hxw, hxf, hxs⟩
    rcases List.mem_cons.mp hx with rfl | hx2
    · refine ⟨if x.avail.length = 0 then ReadErr.eof else ReadErr.unexpectedEof, ?_⟩
      rw [applyStream_cons]
      have happ : applyEntry fs0 x = Except.error (ApplyError.fileData
          (if x.avail.length = 0 then ReadErr.eof else ReadErr.unexpectedEof)) := by
        unfold applyEntry
        rw [if_neg (by simp [hxw]), if_pos hxf]
        unfold readFull
        rw [if_neg (by omega)]
        by_cases h0 : x.avail.length = 0
        · rw [if_pos h0, if_pos h0]
        · rw [if_neg h0, if_neg h0]
      rw [happ]
    · rw [applyStream_cons]
      cases happ : applyEntry fs0 it with
      | error e =>
        cases e with
        | fileData c => exact ⟨c, rfl⟩
      | ok fs1 => exact ih fs1 ⟨x, hx2, hxw, hxf, hxs⟩

theorem readFull_ok {avail : List Nat} {n : Nat} {data : List Nat}
    (h : readFull avail n = Except.ok data) : data = avail.take n := by
  unfold readFull at h
  split_ifs at h
  all_goals (cases h; rfl)

theorem applyStream_union_of_ok (items : List TarItem) :
    ∀ fs0 fs, (∀ it ∈ items, isWhiteoutFile it.header.name = false) →
    applyStream fs0 items = Except.ok fs →
    ∀ p, mapLookup fs p =
      match lastWrite p items with
      | some it => some (mkEntry it)
      | none => mapLookup fs0 p := by
  induction items with
  | nil =>
    intro fs0 fs hw heq p
    cases heq
    rfl
  | cons it rest ih =>
    intro fs0 fs hw heq p
    rw [applyStream_cons] at heq
    have hwit : isWhiteoutFile it.header.name = false := hw it (List.mem_cons_self _ _)
    revert heq
    unfold applyEntry
    rw [if_neg (by simp [hwit])]
    cases hread : (if it.header.typeflag = '0' then readFull it.avail it.header.size
        else Except.ok ([] : List Nat)) with
    | error e => intro heq; cases heq
    | ok data =>
      intro heq
      have hdata : data = (if it.header.typeflag = '0' then
          it.avail.take it.header.size else []) := by
        revert hread
        split_ifs with hf
        · exact fun hread => readFull_ok hread
        · intro hread; cases hread; rfl
      have hmk : (⟨it.header, data⟩ : FileEntry) = mkEntry it := by
        unfold mkEntry
        rw [hdata]
      have heq2 : applyStream
          (mapInsert fs0 (cleanPath it.header.name) ⟨it.header, data⟩) rest =
          Except.ok fs := heq
      rw [hmk] at heq2
      have hrec := ih (mapInsert fs0 (cleanPath it.header.name) (mkEntry it)) fs
        (fun x hx => hw x (List.mem_cons_of_mem _ hx)) heq2 p
      rw [hrec]
      cases hr : lastWrite p rest with
      | some r => simp [lastWrite, hr]
      | none =>
        rw [mapLookup_insert]
        by_cases hp : cleanPath it.header.name = p
        · simp [lastWrite, hr, hp]
        · simp [lastWrite, hr, hp]

/-- C1.  For layer sequences without whiteout markers, the produced
snapshot is the path-wise union of all layers' entries keyed by the
normalized (`cleanPath`) path: the lookup at every path equals the entry
built from the stream item that wrote that path last — last layer wins,
and within one layer the later stream position wins — with the whole
entry (header metadata and content) replaced, never merged. -/
theorem applyLayers_union_override (layers : List (List TarItem))
    (hw : ∀ L ∈ layers, ∀ it ∈ L, isWhiteoutFile it.header.name = false)
    (fs : Snapshot) (h : applyLayers layers = Except.ok fs) :
    ∀ p, mapLookup fs p =
      match lastWrite p layers.flatten with
      | some it => some (mkEntry it)
      | none => none := by
  rw [applyLayers_eq_applyStream] at h
  intro p
  have hw2 : ∀ it ∈ layers.flatten, isWhiteoutFile it.header.name = false := by
    intro it hit
    rcases List.mem_flatten.mp hit with ⟨L, hL, hitL⟩
    exact hw L hL it hitL
  have := applyStream_union_of_ok layers.flatten [] fs hw2 h p
  rw [this]
  cases lastWrite p layers.flatten <;> rfl

theorem applyLayers_union_override_witness :
    mapLookup [(str "a", ⟨hdr "a" '0' 1, [50]⟩), (str "b", ⟨hdr "b" '5' 0, []⟩)] (str "a") =
      match lastWrite (str "a")
          [⟨hdr "a" '0' 1, [49]⟩, ⟨hdr "a" '0' 1, [50]⟩, ⟨hdr "b" '5' 0, []⟩] with
      | some it => some (mkEntry it)
      | none => none :=
  applyLayers_union_override
    [[⟨hdr "a" '0' 1, [49]⟩], [⟨hdr "a" '0' 1, [50]⟩, ⟨hdr "b" '5' 0, []⟩]]
    (by decide)
    [(str "a", ⟨hdr "a" '0' 1, [50]⟩), (str "b", ⟨hdr "b" '5' 0, []⟩)]
    (by rfl)
    (str "a")

/-- C2 counterexample.  The opaque whiteout `d/.wh..wh..opq` deletes the
snapshot entry stored at `d/` — the directory path itself in its
trailing-separator form — and a root-level opaque marker deletes every
entry including the root entry `.`, contradicting the claim that an
entry at the marker's directory path is never removed. -/
theorem opaqueWhiteout_deletes_dir_entry :
    mapMember [(str "d/", ⟨hdr "d/" '5' 0, []⟩), (str "d", ⟨hdr "d" '5' 0, []⟩)]
      (str "d/") = true ∧
    mapMember (handleWhiteout
      [(str "d/", ⟨hdr "d/" '5' 0, []⟩), (str "d", ⟨hdr "d" '5' 0, []⟩)]
      (str "d/.wh..wh..opq")) (str "d/") = false ∧
    handleWhiteout [(str ".", ⟨hdr "." '5' 0, []⟩), (str "e", ⟨hdr "e" '0' 0, []⟩)]
      (str ".wh..wh..opq") = [] := by
  refine ⟨by decide, by decide, by decide⟩

/-- C2 amended.  Processing an opaque whiteout whose computed directory is
`d` deletes exactly the entries whose key extends `d ++ "/"` as a string —
which spares an entry stored at `d` but removes one stored at `d/` — and
when the marker sits at the root (`d = "."`) the scan prefix is empty, so
every entry of the snapshot is deleted, the root entry included. -/
theorem opaqueWhiteout_scope (fs : Snapshot) (m d : List Char)
    (hb : goBase m = opqMark) (hd : goDir m = d) :
    (d ≠ str "." → ∀ p, (mapMember (handleWhiteout fs m) p = true ↔
        mapMember fs p = true ∧ goHasPfx p (d ++ str "/") = false)) ∧
    (d = str "." → handleWhiteout fs m = []) := by
  subst hd
  constructor
  · intro hne p
    have hl := handleWhiteout_opaque_lookup fs m (goDir m) hb rfl p
    rw [if_neg hne] at hl
    unfold mapMember
    rw [hl]
    by_cases hp : goHasPfx p (goDir m ++ str "/") = true
    · simp [hp]
    · simp [hp]
  · intro hroot
    have h1 : handleWhiteout fs m =
        fs.filter (fun kv => !(goHasPfx kv.1 ([] : List Char))) := by
      simp [handleWhiteout, hb, hroot]
    rw [h1]
    refine List.filter_eq_nil_iff.mpr ?_
    intro kv _
    have hfull : goHasPfx kv.1 ([] : List Char) = true := by cases kv.1 <;> rfl
    simp [hfull]

theorem opaqueWhiteout_scope_witness :
    ((str "d") ≠ str "." → ∀ p, (mapMember (handleWhiteout
        [(str "d/", ⟨hdr "d/" '5' 0, []⟩), (str "d", ⟨hdr "d" '5' 0, []⟩),
         (str "d/x", ⟨hdr "d/x" '0' 0, []⟩), (str "e", ⟨hdr "e" '0' 0, []⟩)]
        (str "d/.wh..wh..opq")) p = true ↔
      mapMember [(str "d/", ⟨hdr "d/" '5' 0, []⟩), (str "d", ⟨hdr "d" '5' 0, []⟩),
         (str "d/x", ⟨hdr "d/x" '0' 0, []⟩), (str "e", ⟨hdr "e" '0' 0, []⟩)] p = true ∧
        goHasPfx p (str "d" ++ str "/") = false)) ∧
    ((str "d") = str "." → handleWhiteout
        [(str "d/", ⟨hdr "d/" '5' 0, []⟩), (str "d", ⟨hdr "d" '5' 0, []⟩),
         (str "d/x", ⟨hdr "d/x" '0' 0, []⟩), (str "e", ⟨hdr "e" '0' 0, []⟩)]
        (str "d/.wh..wh..opq") = []) :=
  opaqueWhiteout_scope
    [(str "d/", ⟨hdr "d/" '5' 0, []⟩), (str "d", ⟨hdr "d" '5' 0, []⟩),
     (str "d/x", ⟨hdr "d/x" '0' 0, []⟩), (str "e", ⟨hdr "e" '0' 0, []⟩)]
    (str "d/.wh..wh..opq") (str "d") (by decide) (by decide)

/-- C3.  A whiteout marker met partway through the concatenated stream
acts exactly at its position: processing `P ++ marker :: S` first builds
the state after `P`, then applies the marker's deletions to that state,
then continues with `S` — so the marker touches only entries present at
that point and cannot block later inserts of the same layer.  In the
spec's scenario the opaque marker of layer 2 removes `d/x` and the later
entry of the same layer reinstates `d/y`, leaving exactly `d/y` with
content `"2"` (byte 50). -/
theorem whiteout_midstream (fs0 fs1 : Snapshot) (P S : List TarItem) (w : TarItem)
    (hwit : isWhiteoutFile w.header.name = true)
    (hP : applyStream fs0 P = Except.ok fs1) :
    applyStream fs0 (P ++ w :: S) =
      applyStream (handleWhiteout fs1 w.header.name) S ∧
    applyLayers [[⟨hdr "d/x" '0' 1, [49]⟩],
                 [⟨hdr "d/.wh..wh..opq" '0' 0, []⟩, ⟨hdr "d/y" '0' 1, [50]⟩]] =
      Except.ok [(str "d/y", ⟨hdr "d/y" '0' 1, [50]⟩)] := by
  constructor
  · rw [applyStream_append, hP]
    show applyStream fs1 (w :: S) = _
    rw [applyStream_cons]
    have happ : applyEntry fs1 w = Except.ok (handleWhiteout fs1 w.header.name) := by
      unfold applyEntry
      rw [if_pos hwit]
    rw [happ]
  · rfl

theorem whiteout_midstream_witness :
    applyStream [] ([⟨hdr "d/x" '0' 1, [49]⟩] ++
        (⟨hdr "d/.wh..wh..opq" '0' 0, []⟩ : TarItem) :: [⟨hdr "d/y" '0' 1, [50]⟩]) =
      applyStream (handleWhiteout [(str "d/x", ⟨hdr "d/x" '0' 1, [49]⟩)]
        (str "d/.wh..wh..opq")) [⟨hdr "d/y" '0' 1, [50]⟩] ∧
    applyLayers [[⟨hdr "d/x" '0' 1, [49]⟩],
                 [⟨hdr "d/.wh..wh..opq" '0' 0, []⟩, ⟨hdr "d/y" '0' 1, [50]⟩]] =
      Except.ok [(str "d/y", ⟨hdr "d/y" '0' 1, [50]⟩)] :=
  whiteout_midstream [] [(str "d/x", ⟨hdr "d/x" '0' 1, [49]⟩)]
    [⟨hdr "d/x" '0' 1, [49]⟩] [⟨hdr "d/y" '0' 1, [50]⟩]
    ⟨hdr "d/.wh..wh..opq" '0' 0, []⟩ (by decide) (by rfl)

/-- C4.  In the serialized output stream, pairwise in order of emission:
a directory is never preceded by a non-directory; a regular-file-or-other
entry is never preceded by a symlink or hardlink; no entry whose name
properly extends the name of a directory appearing later precedes that
directory (so every entry under a directory path P comes strictly after
P); and among directories depth is ascending with lexicographic
tie-breaking. -/
theorem serializer_output_order (fs : Snapshot) :
    List.Pairwise (fun x y : TarHeader × List Nat =>
      (y.1.typeflag = '5' → x.1.typeflag = '5') ∧
      ((x.1.typeflag = '2' ∨ x.1.typeflag = '1') →
        (y.1.typeflag = '2' ∨ y.1.typeflag = '1')) ∧
      (y.1.typeflag = '5' → ¬ (y.1.name <+: x.1.name ∧ y.1.name ≠ x.1.name)) ∧
      (x.1.typeflag = '5' ∧ y.1.typeflag = '5' →
        slashCount x.1.name ≤ slashCount y.1.name ∧
        (slashCount x.1.name = slashCount y.1.name →
          ¬ List.Lex (· < ·) y.1.name x.1.name)))
      (writeFilesystemTar fs) := by
  unfold writeFilesystemTar
  rw [List.pairwise_map]
  refine (sortTarEntries_sorted fs).imp ?_
  intro a b h
  exact tarLe_safe h

/-- C5 counterexample.  The identical opaque marker with and without a
leading path separator deletes different sets of normalized snapshot
entries: `/d/.wh..wh..opq` computes scan prefix `/d/`, which matches no
normalized key, so `d/x` survives; `d/.wh..wh..opq` deletes it. -/
theorem leadingSlash_opaque_differs :
    handleWhiteout [(str "d/x", ⟨hdr "d/x" '0' 1, [49]⟩)] (str "/d/.wh..wh..opq") =
      [(str "d/x", ⟨hdr "d/x" '0' 1, [49]⟩)] ∧
    handleWhiteout [(str "d/x", ⟨hdr "d/x" '0' 1, [49]⟩)] (str "d/.wh..wh..opq") =
      [] :=
  ⟨by decide, by decide⟩

/-- C5 amended.  Entry classification reads the raw name; normalization
(`cleanPath`) is applied when an ordinary entry is stored (`/etc/hosts` →
`etc/hosts`, `/` and `""` → `.`) and to the computed target of a regular
whiteout — hence a regular whiteout marker with a leading separator
deletes exactly the same entries as without it — but an opaque whiteout
marker with a leading separator scans for prefix `/d/` and deletes
nothing from a snapshot whose keys are normalized (no leading
separator). -/
theorem rawName_classification (fs : Snapshot) :
    cleanPath (str "/etc/hosts") = str "etc/hosts" ∧
    cleanPath (str "/") = str "." ∧
    cleanPath (str "") = str "." ∧
    (∀ p, mapLookup (handleWhiteout fs (str "/d/.wh.f")) p =
      mapLookup (handleWhiteout fs (str "d/.wh.f")) p) ∧
    ((∀ kv ∈ fs, kv.1.head? ≠ some '/') →
      handleWhiteout fs (str "/d/.wh..wh..opq") = fs) := by
  refine ⟨by decide, by decide, by decide, ?_, ?_⟩
  · intro p
    rw [handleWhiteout_regular_lookup fs (str "/d/.wh.f") (str ".wh.f") (str "d/f")
        (by decide) (by decide) (by decide) (by decide) p,
      handleWhiteout_regular_lookup fs (str "d/.wh.f") (str ".wh.f") (str "d/f")
        (by decide) (by decide) (by decide) (by decide) p]
  · intro hkeys
    have hb : goBase (str "/d/.wh..wh..opq") = opqMark := by decide
    have hd : goDir (str "/d/.wh..wh..opq") = str "/d" := by decide
    have hne2 : ¬ (str "/d" = str ".") := by decide
    have h1 : handleWhiteout fs (str "/d/.wh..wh..opq") =
        fs.filter (fun kv => !(goHasPfx kv.1 (str "/d" ++ str "/"))) := by
      simp [handleWhiteout, hb, hd, hne2]
    rw [h1]
    refine List.filter_eq_self.mpr ?_
    intro kv hkv
    suffices hs : goHasPfx kv.1 (str "/d" ++ str "/") = false by simp [hs]
    cases hb2 : goHasPfx kv.1 (str "/d" ++ str "/") with
    | false => rfl
    | true =>
      exfalso
      have hb3 : (str "/d" ++ str "/").isPrefixOf kv.1 = true := hb2
      rcases List.isPrefixOf_iff_prefix.mp hb3 with ⟨t, ht⟩
      have hsd : str "/d" ++ str "/" = ['/', 'd', '/'] := by decide
      rw [hsd] at ht
      have hhead : kv.1.head? = some '/' := by
        rw [← ht]
        rfl
      exact hkeys kv hkv hhead

theorem rawName_classification_witness :
    cleanPath (str "/etc/hosts") = str "etc/hosts" ∧
    cleanPath (str "/") = str "." ∧
    cleanPath (str "") = str "." ∧
    (∀ p, mapLookup (handleWhiteout [(str "d/f", ⟨hdr "d/f" '0' 1, [49]⟩)]
        (str "/d/.wh.f")) p =
      mapLookup (handleWhiteout [(str "d/f", ⟨hdr "d/f" '0' 1, [49]⟩)]
        (str "d/.wh.f")) p) ∧
    ((∀ kv ∈ [(str "d/f", (⟨hdr "d/f" '0' 1, [49]⟩ : FileEntry))],
        kv.1.head? ≠ some '/') →
      handleWhiteout [(str "d/f", ⟨hdr "d/f" '0' 1, [49]⟩)]
        (str "/d/.wh..wh..opq") = [(str "d/f", ⟨hdr "d/f" '0' 1, [49]⟩)]) :=
  rawName_classification [(str "d/f", ⟨hdr "d/f" '0' 1, [49]⟩)]

/-- C6.  A regular whiteout marker with computed target `t` (the marker's
directory joined with the name after the `.wh.` marker, normalized)
deletes the entry stored at exactly `t` and every entry whose key lies
strictly inside `t` (extends `t ++ "/"`), and deletes nothing else: a
path survives processing precisely when it was present and is neither
`t` nor inside `t`. -/
theorem regularWhiteout_scope (fs : Snapshot) (m b t : List Char)
    (hb : goBase m = b) (hne : b ≠ opqMark) (hw : goHasPfx b whMark = true)
    (ht : t = cleanPath (goJoin (goDir m) (goTrimPfx b whMark))) :
    ∀ p, mapMember (handleWhiteout fs m) p = true ↔
      (mapMember fs p = true ∧ ¬(p = t ∨ goHasPfx p (t ++ str "/") = true)) := by
  intro p
  have hl := handleWhiteout_regular_lookup fs m b t hb hne hw ht p
  unfold mapMember
  rw [hl]
  by_cases hc : p = t ∨ goHasPfx p (t ++ str "/") = true
  · simp [hc]
  · simp [hc]

theorem regularWhiteout_scope_witness :
    mapMember (handleWhiteout
        [(str "d/sub", ⟨hdr "d/sub" '5' 0, []⟩),
         (str "d/sub/file", ⟨hdr "d/sub/file" '0' 0, []⟩),
         (str "d/other", ⟨hdr "d/other" '0' 0, []⟩)] (str "d/.wh.sub"))
        (str "d/sub/file") = true ↔
      (mapMember [(str "d/sub", ⟨hdr "d/sub" '5' 0, []⟩),
         (str "d/sub/file", ⟨hdr "d/sub/file" '0' 0, []⟩),
         (str "d/other", ⟨hdr "d/other" '0' 0, []⟩)] (str "d/sub/file") = true ∧
        ¬(str "d/sub/file" = str "d/sub" ∨
          goHasPfx (str "d/sub/file") (str "d/sub" ++ str "/") = true)) :=
  regularWhiteout_scope
    [(str "d/sub", ⟨hdr "d/sub" '5' 0, []⟩),
     (str "d/sub/file", ⟨hdr "d/sub/file" '0' 0, []⟩),
     (str "d/other", ⟨hdr "d/other" '0' 0, []⟩)]
    (str "d/.wh.sub") (str ".wh.sub") (str "d/sub")
    (by decide) (by decide) (by decide) (by decide)
    (str "d/sub/file")

/-- C7 counterexample.  Two layer sequences with different offending
paths ("a" with 5 declared / 3 available vs "b" with 7 declared / 2
available) abort with the *same* error value: the read-failure error the
code produces is the constant wrapped message and carries neither the
path nor the expected/actual byte counts. -/
theorem truncated_error_carries_no_path :
    applyLayers [[⟨hdr "a" '0' 5, [0, 0, 0]⟩]] =
      Except.error (ApplyError.fileData ReadErr.unexpectedEof) ∧
    applyLayers [[⟨hdr "b" '0' 7, [0, 0]⟩]] =
      Except.error (ApplyError.fileData ReadErr.unexpectedEof) :=
  ⟨by rfl, by rfl⟩

/-- C7 amended.  A layer sequence containing a non-whiteout regular-file
entry that declares more bytes than its stream provides always aborts:
the result is the file-data read error (wrapping the `io.ReadFull`
cause), and no snapshot is returned.  The error does not name the
offending path or the byte counts. -/
theorem applyLayers_truncated_aborts (layers : List (List TarItem))
    (hbad : ∃ L ∈ layers, ∃ it ∈ L, isWhiteoutFile it.header.name = false ∧
      it.header.typeflag = '0' ∧ it.avail.length < it.header.size) :
    ∃ c, applyLayers layers = Except.error (ApplyError.fileData c) := by
  rw [applyLayers_eq_applyStream]
  refine applyStream_error_of_bad layers.flatten [] ?_
  obtain ⟨L, hL, it, hit, h⟩ := hbad
  exact ⟨it, List.mem_flatten.mpr ⟨L, hL, hit⟩, h⟩

theorem applyLayers_truncated_aborts_witness :
    ∃ c, applyLayers [[⟨hdr "c" '0' 3, [7]⟩]] =
      Except.error (ApplyError.fileData c) :=
  applyLayers_truncated_aborts [[⟨hdr "c" '0' 3, [7]⟩]] (by decide)

/-- C8 counterexample.  The duplicate serializer without the sort pass
emits entries in map-enumeration order: two runs over the same two-entry
snapshot (the two lists are permutations, i.e. the same map) produce
different output streams. -/
theorem unsorted_serializer_order_dependent :
    List.Perm
      [(str "a", (⟨hdr "a" '0' 1, [49]⟩ : FileEntry)), (str "b", ⟨hdr "b" '0' 1, [50]⟩)]
      [(str "b", ⟨hdr "b" '0' 1, [50]⟩), (str "a", ⟨hdr "a" '0' 1, [49]⟩)] ∧
    writeFilesystemTarUnsorted
      [(str "a", ⟨hdr "a" '0' 1, [49]⟩), (str "b", ⟨hdr "b" '0' 1, [50]⟩)] ≠
    writeFilesystemTarUnsorted
      [(str "b", ⟨hdr "b" '0' 1, [50]⟩), (str "a", ⟨hdr "a" '0' 1, [49]⟩)] :=
  ⟨List.Perm.swap _ _ _, by decide⟩

/-- C8 amended.  The sorting serializer is deterministic: any two
enumerations of the same snapshot map (permutations of the same
key/entry pairs, with the per-map distinct entry names) serialize to
identical output streams, and every emitted header carries the
normalized metadata (epoch modification time, cleared access and change
times).  The duplicate serializer without the sort pass does not have
this property. -/
theorem sorted_serializer_deterministic (L1 L2 : Snapshot)
    (hperm : List.Perm L1 L2)
    (hnd : (L1.map (fun kv => kv.2.header.name)).Nodup) :
    writeFilesystemTar L1 = writeFilesystemTar L2 ∧
    ∀ rec ∈ writeFilesystemTar L1,
      rec.1.modTime = GoTime.unix 0 0 ∧ rec.1.accessTime = GoTime.zero ∧
      rec.1.changeTime = GoTime.zero := by
  constructor
  · unfold writeFilesystemTar
    rw [sortTarEntries_eq_of_perm hperm hnd]
  · intro rec hrec
    unfold writeFilesystemTar at hrec
    rcases List.mem_map.mp hrec with ⟨e, _, rfl⟩
    exact ⟨rfl, rfl, rfl⟩

theorem sorted_serializer_deterministic_witness :
    writeFilesystemTar
      [(str "a", (⟨hdr "a" '0' 1, [49]⟩ : FileEntry)), (str "b", ⟨hdr "b" '0' 1, [50]⟩)] =
    writeFilesystemTar
      [(str "b", ⟨hdr "b" '0' 1, [50]⟩), (str "a", ⟨hdr "a" '0' 1, [49]⟩)] ∧
    ∀ rec ∈ writeFilesystemTar
      [(str "a", (⟨hdr "a" '0' 1, [49]⟩ : FileEntry)), (str "b", ⟨hdr "b" '0' 1, [50]⟩)],
      rec.1.modTime = GoTime.unix 0 0 ∧ rec.1.accessTime = GoTime.zero ∧
      rec.1.changeTime = GoTime.zero :=
  sorted_serializer_deterministic
    [(str "a", ⟨hdr "a" '0' 1, [49]⟩), (str "b", ⟨hdr "b" '0' 1, [50]⟩)]
    [(str "b", ⟨hdr "b" '0' 1, [50]⟩), (str "a", ⟨hdr "a" '0' 1, [49]⟩)]
    (List.Perm.swap _ _ _) (by decide)

/-- C9 counterexample.  The write loop assigns the header time fields in
place through the map's shared pointers: after serialization the stored
entry at "a" no longer equals what the overlay engine produced (its
modification time was 7, now the epoch). -/
theorem serializer_mutates_snapshot :
    mapLookup (serializedSnapshot [(str "a", ⟨hdr "a" '0' 1, [49]⟩)]) (str "a") ≠
      mapLookup [(str "a", ⟨hdr "a" '0' 1, [49]⟩)] (str "a") := by
  decide

/-- C9 amended.  Serialization rewrites, for every stored entry, exactly
the three header time fields in place (modification time to the epoch,
access and change times cleared); the key set, the content bytes and all
other header fields are unchanged. -/
theorem serializer_touches_only_times (fs : Snapshot) (p : List Char) (e : FileEntry)
    (h : mapLookup fs p = some e) :
    mapLookup (serializedSnapshot fs) p = some ⟨normalizeHeader e.header, e.data⟩ ∧
    (normalizeHeader e.header).name = e.header.name ∧
    (normalizeHeader e.header).typeflag = e.header.typeflag ∧
    (normalizeHeader e.header).linkname = e.header.linkname ∧
    (normalizeHeader e.header).size = e.header.size ∧
    (normalizeHeader e.header).mode = e.header.mode ∧
    (normalizeHeader e.header).uid = e.header.uid ∧
    (normalizeHeader e.header).gid = e.header.gid ∧
    (normalizeHeader e.header).modTime = GoTime.unix 0 0 ∧
    (normalizeHeader e.header).accessTime = GoTime.zero ∧
    (normalizeHeader e.header).changeTime = GoTime.zero := by
  refine ⟨?_, rfl, rfl, rfl, rfl, rfl, rfl, rfl, rfl, rfl, rfl⟩
  rw [mapLookup_serialized, h]
  rfl

theorem serializer_touches_only_times_witness :
    mapLookup (serializedSnapshot [(str "a", ⟨hdr "a" '0' 1, [49]⟩)]) (str "a") =
      some ⟨normalizeHeader (hdr "a" '0' 1), [49]⟩ ∧
    (normalizeHeader (hdr "a" '0' 1)).name = (hdr "a" '0' 1).name ∧
    (normalizeHeader (hdr "a" '0' 1)).typeflag = (hdr "a" '0' 1).typeflag ∧
    (normalizeHeader (hdr "a" '0' 1)).linkname = (hdr "a" '0' 1).linkname ∧
    (normalizeHeader (hdr "a" '0' 1)).size = (hdr "a" '0' 1).size ∧
    (normalizeHeader (hdr "a" '0' 1)).mode = (hdr "a" '0' 1).mode ∧
    (normalizeHeader (hdr "a" '0' 1)).uid = (hdr "a" '0' 1).uid ∧
    (normalizeHeader (hdr "a" '0' 1)).gid = (hdr "a" '0' 1).gid ∧
    (normalizeHeader (hdr "a" '0' 1)).modTime = GoTime.unix 0 0 ∧
    (normalizeHeader (hdr "a" '0' 1)).accessTime = GoTime.zero ∧
    (normalizeHeader (hdr "a" '0' 1)).changeTime = GoTime.zero :=
  serializer_touches_only_times [(str "a", ⟨hdr "a" '0' 1, [49]⟩)] (str "a")
    ⟨hdr "a" '0' 1, [49]⟩ (by decide)

/-- C10.  No entry whose final path component starts with the `.wh.`
deletion-marker prefix ever appears in a successfully built snapshot —
neither among the keys nor among the stored header names — nor in the
serialized output: every such stream entry (including a bare `.wh.`
name) is consumed by the whiteout handler and never inserted. -/
theorem no_marker_in_snapshot_or_output (layers : List (List TarItem)) (fs : Snapshot)
    (h : applyLayers layers = Except.ok fs) :
    (∀ kv ∈ fs, goHasPfx (goBase kv.1) whMark = false ∧
      goHasPfx (goBase kv.2.header.name) whMark = false) ∧
    (∀ rec ∈ writeFilesystemTar fs, goHasPfx (goBase rec.1.name) whMark = false) := by
  rw [applyLayers_eq_applyStream] at h
  have hinv : noMarkerInv fs :=
    applyStream_noMarker layers.flatten [] fs
      (fun kv hkv => absurd hkv (List.not_mem_nil kv)) h
  refine ⟨hinv, ?_⟩
  intro rec hrec
  unfold writeFilesystemTar at hrec
  rcases List.mem_map.mp hrec with ⟨e, he, rfl⟩
  have he2 : e ∈ fs.map (fun kv => kv.2) := (sortTarEntries_perm fs).mem_iff.mp he
  rcases List.mem_map.mp he2 with ⟨kv, hkv, rfl⟩
  exact (hinv kv hkv).2

theorem no_marker_in_snapshot_or_output_witness :
    (∀ kv ∈ [(str "etc", (⟨hdr "etc" '5' 0, []⟩ : FileEntry))],
      goHasPfx (goBase kv.1) whMark = false ∧
      goHasPfx (goBase kv.2.header.name) whMark = false) ∧
    (∀ rec ∈ writeFilesystemTar [(str "etc", ⟨hdr "etc" '5' 0, []⟩)],
      goHasPfx (goBase rec.1.name) whMark = false) :=
  no_marker_in_snapshot_or_output
    [[⟨hdr "etc" '5' 0, []⟩, ⟨hdr ".wh." '0' 0, []⟩, ⟨hdr "d/.wh.x" '0' 0, []⟩]]
    [(str "etc", ⟨hdr "etc" '5' 0, []⟩)]
    (by rfl)
